import Mathlib

set_option linter.unusedSectionVars false

/-!
Shallow embedding of the red-black tree map of `src/tree/src/rbtree.cpp`
(`TreeMap<K, V>`), together with proofs about its invariants and its public
operations.

The C++ code is a pointer structure with parent back-references; mutating
procedures walk up the tree through `parent`.  The embedding represents a
node's position by a zipper: the subtree in focus plus a `Path`, a list of
`Frame`s describing the chain of ancestors (innermost ancestor first).  A
`Frame` records on which side of the ancestor the focus hangs (the node's
`direction()`), the ancestor's colour, key and value, and the ancestor's
other child (the focus's `sibling()`).  `plug` rebuilds the whole tree from
a zipper.  Rotations become local rebuilding of frames; the fix-up
procedures that recurse on `node->parent` become structural recursion on
the `Path`.

Null-pointer dereferences (undefined behaviour in the C++) are modelled by
`Option`: a function returns `none` exactly when the C++ would dereference
a null `shared_ptr`.  `assert` statements compile away under `NDEBUG` and
are not modelled; each is noted in a comment where it occurs.
-/

namespace RBT

/-- `enum class Color` of `rbtree.cpp` (RED, BLACK). -/
inductive Color where
  | red
  | black
deriving DecidableEq, Repr

/-- `Direction::LEFT` / `Direction::RIGHT` (the `ROOT` case of the C++ enum
corresponds to an empty `Path` and needs no constructor). -/
inductive Dir where
  | left
  | right
deriving DecidableEq, Repr

/-- A `Node` subtree: colour, left child, key, value, right child.
`nil` is the null pointer. -/
inductive RBNode (K V : Type) where
  | nil
  | node (c : Color) (l : RBNode K V) (k : K) (v : V) (r : RBNode K V)
deriving DecidableEq, Repr

/-- One step of ancestor context: the focus is the `d`-side child of a node
with colour `c`, key `k`, value `v`, whose other child is `sib`
(`Node::sibling()`). -/
structure Frame (K V : Type) where
  d : Dir
  c : Color
  k : K
  v : V
  sib : RBNode K V
deriving DecidableEq, Repr

/-- The chain of ancestors of a focused node, innermost (parent) first.
An empty path means the focus is the root (`Node::direction() == ROOT`). -/
abbrev Path (K V : Type) := List (Frame K V)

variable {K V : Type} [LinearOrder K]

/-- `Node::is_red()`, with `nil` not red; the C++ always guards a null
pointer by `ptr && ptr->is_red()` where this is applied to a possibly-null
pointer (insert case 4: `uncle && uncle->is_red()`). -/
def isRed : RBNode K V → Bool
  | .node .red _ _ _ _ => true
  | _ => false

/-- `child->color = Color::BLACK` applied to the root of a subtree. -/
def paintBlack : RBNode K V → RBNode K V
  | .nil => .nil
  | .node _ l k v r => .node .black l k v r

/-- Rebuild the parent node of a focus from its frame. -/
def fill : Frame K V → RBNode K V → RBNode K V
  | ⟨.left, c, k, v, sib⟩, t => .node c t k v sib
  | ⟨.right, c, k, v, sib⟩, t => .node c sib k v t

/-- Rebuild the whole tree from a zipper. -/
def plug (t : RBNode K V) : Path K V → RBNode K V
  | [] => t
  | f :: p => plug (fill f t) p

/-- `TreeMap::_maintain_after_insert(node)`.  The focus `n` is the red node
the fix-up is invoked on; the result is the whole tree.

* Case 1 (`!node->parent`) / Case 2 (parent black): return, tree unchanged.
* Case 3 (parent red and parent == root): recolour the parent black.
* Case 4 (uncle red): parent and uncle black, grandparent red, recurse on
  the grandparent.
* Case 5 (uncle black or absent): if the node's direction differs from the
  parent's, first `_rotate(parent, parentDir)`; then
  `_rotate(grandparent, -parentDir)`, recolour `parent` black and
  `grandparent` red.  The rotation results are spelled out frame-by-frame;
  note that after the case 5.1 rotation the C++ `parent` and `grandparent`
  pointers still denote the *original* nodes, so the recolouring hits the
  demoted original parent, not the promoted node. -/
def maintain_after_insert (n : RBNode K V) : Path K V → RBNode K V
  | [] => n
  | f :: p =>
    if f.c = .black then plug (fill f n) p
    else
      match p with
      | [] => plug (fill ⟨f.d, .black, f.k, f.v, f.sib⟩ n) []
      | g :: p' =>
        if isRed g.sib then
          -- Case 4: parent->BLACK, uncle->BLACK, grandparent->RED, recurse
          maintain_after_insert
            (fill ⟨g.d, .red, g.k, g.v, paintBlack g.sib⟩
              (fill ⟨f.d, .black, f.k, f.v, f.sib⟩ n)) p'
        else
          match g.d, f.d with
          | .left, .left =>
            -- parent (left child) promoted by _rotate(grandparent, RIGHT):
            -- parent black on top, grandparent red as its right child
            plug (.node .black n f.k f.v (.node .red f.sib g.k g.v g.sib)) p'
          | .right, .right =>
            plug (.node .black (.node .red g.sib g.k g.v f.sib) f.k f.v n) p'
          | .left, .right =>
            -- zig-zag: _rotate(parent, LEFT) promotes n, then
            -- _rotate(grandparent, RIGHT) promotes n again; the colour
            -- writes still target the original parent and grandparent
            match n with
            | .nil => plug n (f :: g :: p')   -- unreachable: the focus is a materialised node
            | .node cn nl kn vn nr =>
              plug (.node cn (.node .black f.sib f.k f.v nl) kn vn
                (.node .red nr g.k g.v g.sib)) p'
          | .right, .left =>
            match n with
            | .nil => plug n (f :: g :: p')   -- unreachable
            | .node cn nl kn vn nr =>
              plug (.node cn (.node .red g.sib g.k g.v nl) kn vn
                (.node .black nr f.k f.v f.sib)) p'

/-- `TreeMap::_get(key, node, on_found, on_not_found)`, with the found
continuation receiving the node as a zipper (the C++ hands over a `PNode`
whose position is implicit in its parent pointers).  Returns the focused
node's colour, children, key, value, and its path. -/
def searchPath (key : K) :
    RBNode K V → Path K V → Option (Color × RBNode K V × K × V × RBNode K V × Path K V)
  | .nil, _ => none
  | .node c l k v r, acc =>
    if key = k then some (c, l, k, v, r, acc)
    else if key < k then searchPath key l (⟨.left, c, k, v, r⟩ :: acc)
    else searchPath key r (⟨.right, c, k, v, l⟩ :: acc)

/-- The `TreeMap`: owning root pointer plus the `_size` counter. -/
structure TreeMap (K V : Type) where
  root : RBNode K V
  size : Nat
deriving DecidableEq, Repr

/-- `TreeMap()` default constructor: null root, size 0. -/
def TreeMap.empty : TreeMap K V := ⟨.nil, 0⟩

/-- The `std::out_of_range("Key '{}' not found")` thrown by `TreeMap::get`. -/
structure KeyNotFound (K : Type) where
  key : K
deriving DecidableEq, Repr

/-- `TreeMap::get_or(key, on_not_found)`: `_get` with the found
continuation returning the node's value. -/
def TreeMap.get_or (key : K) (m : TreeMap K V) (on_not_found : Unit → V) : V :=
  match searchPath key m.root [] with
  | some (_, _, _, v, _, _) => v
  | none => on_not_found ()

/-- `TreeMap::get(key)`: like `get_or`, but the not-found continuation
throws `std::out_of_range`; the exception is modelled by `Except`. -/
def TreeMap.get (key : K) (m : TreeMap K V) : Except (KeyNotFound K) V :=
  match searchPath key m.root [] with
  | some (_, _, _, v, _, _) => .ok v
  | none => .error ⟨key⟩

/-- `TreeMap::get_or_else(key, def)`: `get_or` with a constant fallback.
The C++ method is ill-formed when instantiated: `get_or` expects a
`std::function<V&()>`, but the lambda `[&def]() { return def; }` deduces
return type `V` (by value), and a prvalue `V` cannot bind to `V&`, so the
constrained `std::function` converting constructor drops out and every
call of `get_or_else` is a compile error (the demo driver never calls it,
so the file still builds).  This definition renders the evidently intended
behaviour — return the supplied default — which the code itself cannot
deliver; the defect is recorded with claim C7. -/
def TreeMap.get_or_else (key : K) (m : TreeMap K V) (d : V) : V :=
  m.get_or key (fun _ => d)

/-- The const `TreeMap::operator[](key)`: calls `get`. -/
def TreeMap.indexRead (key : K) (m : TreeMap K V) : Except (KeyNotFound K) V :=
  m.get key

/-- `TreeMap::_get_or_insert(key, func, node, parent)`.  Descends like the
lookup; at a null link it creates a RED node from `func()` (the factory is
invoked only here), links it and runs `_insert` (size increment reported by
the `Bool`, then `_maintain_after_insert`).  On an existing key it returns
the stored value and the tree is unchanged (the zipper is plugged back). -/
def goiAux (key : K) (func : Unit → V) :
    RBNode K V → Path K V → V × RBNode K V × Bool
  | .nil, path =>
    let v := func ()
    (v, maintain_after_insert (.node .red .nil key v .nil) path, true)
  | .node c l k v r, path =>
    if key < k then goiAux key func l (⟨.left, c, k, v, r⟩ :: path)
    else if k < key then goiAux key func r (⟨.right, c, k, v, l⟩ :: path)
    else (v, plug (.node c l k v r) path, false)

/-- `TreeMap::get_or_insert(key, func)`: runs `_get_or_insert` from the
root; `_insert` increments `_size` exactly when a node was created. -/
def TreeMap.get_or_insert (key : K) (func : Unit → V) (m : TreeMap K V) :
    V × TreeMap K V :=
  match goiAux key func m.root [] with
  | (v, t, created) => (v, ⟨t, if created then m.size + 1 else m.size⟩)

/-- `TreeMap::set(key, value)`: `get_or_insert` with a factory returning
`value` (note: the factory is *not* invoked when the key exists, so no
overwrite happens then). -/
def TreeMap.set (key : K) (value : V) (m : TreeMap K V) : V × TreeMap K V :=
  m.get_or_insert key (fun _ => value)

/-- Cases 4 and 5 of `TreeMap::_maintain_after_remove`, reached when not
both nephews are black.  Parameters: the removed node's direction `d`, the
parent's colour/key/value (`cp`, `kp`, `vp`), the current sibling's
children and key/value (`s1`, `ks`, `vs`, `s2`; the sibling's own colour is
immaterial — case 5 overwrites it with the parent's colour), and the rest
of the path.  Returns the removed node's new path.

* Case 4 (close nephew red): `_rotate(sibling, sibling->direction())`
  promotes the close nephew over the sibling, the close nephew is painted
  black (immediately overwritten in case 5 by the parent's colour), the old
  sibling red; the old sibling becomes the distant nephew, the close nephew
  the sibling; fall through to case 5.
* Case 5 (distant nephew red): `_rotate(parent, node->direction())`
  promotes the sibling over the parent; the sibling takes the parent's
  colour, the parent and the distant nephew become black.  Writing to the
  distant nephew's colour dereferences it, hence `none` if it is null
  (unreachable from the call sites, which guarantee a red nephew). -/
def mar_case45 (d : Dir) (cp : Color) (kp : K) (vp : V)
    (s1 : RBNode K V) (ks : K) (vs : V) (s2 : RBNode K V)
    (pr : Path K V) : Option (Path K V) :=
  match d with
  | .left =>
    -- node is the left child: close nephew = sibling->left = s1,
    -- distant nephew = sibling->right = s2
    match s1 with
    | .node .red c1 kc vc c2 =>
      -- Case 4: rotate right at the sibling, then case 5's left rotation
      -- at the parent; final colours as described above
      some (⟨.left, .black, kp, vp, c1⟩ ::
        ⟨.left, cp, kc, vc, .node .black c2 ks vs s2⟩ :: pr)
    | _ =>
      -- Case 5 directly: distant nephew s2 is red
      match s2 with
      | .nil => none   -- distantNephew->color: null dereference
      | .node _ d1 kd vd d2 =>
        some (⟨.left, .black, kp, vp, s1⟩ ::
          ⟨.left, cp, ks, vs, .node .black d1 kd vd d2⟩ :: pr)
  | .right =>
    -- node is the right child: close nephew = s2, distant nephew = s1
    match s2 with
    | .node .red c1 kc vc c2 =>
      some (⟨.right, .black, kp, vp, c2⟩ ::
        ⟨.right, cp, kc, vc, .node .black s1 ks vs c1⟩ :: pr)
    | _ =>
      match s1 with
      | .nil => none   -- distantNephew->color: null dereference
      | .node _ d1 kd vd d2 =>
        some (⟨.right, .black, kp, vp, s2⟩ ::
          ⟨.right, cp, ks, vs, .node .black d1 kd vd d2⟩ :: pr)

/-- `TreeMap::_maintain_after_remove(node)`.  The C++ reads the node only
through `node->direction()`, `node->sibling()` and `node->parent` (plus a
debug `assert(node->is_black() && node->is_leaf())`), so the function is a
transformation of the node's `Path` alone; the node itself stays linked in
place and the result is its new path.  `none` models the C++ dereferencing
a null pointer:

* on an empty path, `node->sibling()` reads `parent->left` with a null
  parent (reached when case 3 recurses onto the root);
* when the sibling is null, `sibling->is_red()` dereferences it;
* in case 1, when the new sibling (the former close nephew) is null, the
  subsequent `sibling->left` / `sibling->right` dereferences it.

Cases, matching the C++:
1. sibling red → `_rotate(parent, node->direction())`, sibling black,
   parent red, recompute the sibling, continue;
2. both nephews black-or-absent, parent red → parent black, sibling red;
3. both nephews black-or-absent, parent black → sibling red, recurse on
   the parent (the recursion's result is the parent's new path, onto which
   the node's own frame is pushed back);
4./5. otherwise `mar_case45`. -/
def maintain_after_remove : Path K V → Option (Path K V)
  | [] => none
  | f :: p =>
    match f.sib with
    | .nil => none
    | .node cs s1 ks vs s2 =>
      if cs = .red then
        -- Case 1
        let close := match f.d with | .left => s1 | .right => s2
        let distant := match f.d with | .left => s2 | .right => s1
        match close with
        | .nil => none
        | .node _cc c1 kc vc c2 =>
          let fS : Frame K V := ⟨f.d, .black, ks, vs, distant⟩
          let close' := match f.d with | .left => c1 | .right => c2
          let distant' := match f.d with | .left => c2 | .right => c1
          if !isRed close' && !isRed distant' then
            -- the parent was just recoloured RED in case 1, so
            -- `parent->is_red()` holds and case 2 applies
            some (⟨f.d, .black, f.k, f.v, .node .red c1 kc vc c2⟩ :: fS :: p)
          else
            mar_case45 f.d .red f.k f.v c1 kc vc c2 (fS :: p)
      else
        let close := match f.d with | .left => s1 | .right => s2
        let distant := match f.d with | .left => s2 | .right => s1
        if !isRed close && !isRed distant then
          if f.c = .red then
            -- Case 2
            some (⟨f.d, .black, f.k, f.v, .node .red s1 ks vs s2⟩ :: p)
          else
            -- Case 3
            (maintain_after_remove p).map
              (fun p' => ⟨f.d, f.c, f.k, f.v, .node .red s1 ks vs s2⟩ :: p')
        else
          mar_case45 f.d f.c f.k f.v s1 ks vs s2 p

/-- The loop of `Node::max()` run from a decomposed node `(c, l, k, v)`
with right subtree given as the recursion argument: follow `right` links
until null, accumulating `.right` frames; returns the right-most node
(colour, left child, key, value — its right child is null) and its frames
consed onto `acc`.  (`Node::max()` itself *starts* at `this->right`; the
null check for that first step is at the call site.) -/
def maxPath (c : Color) (l : RBNode K V) (k : K) (v : V) :
    RBNode K V → Path K V → Color × RBNode K V × K × V × Path K V
  | .nil, acc => (c, l, k, v, acc)
  | .node cr rl kr vr rr, acc => maxPath cr rl kr vr rr (⟨.right, c, k, v, l⟩ :: acc)

/-- Cases 3 and 4 of `TreeMap::_remove_node`, applied to the (possibly
reassigned) target node, decomposed as colour `c`, children `l`, `r`, at
`path`:

* Case 3 (`only_child()` non-null): `_replace_node(node, child)` and paint
  the child black.
* Case 4 (no child): if the node is black, run the remove fix-up *before*
  detaching (the fix-up returns the node's new path), then
  `_replace_node(node, nullptr)`; a red childless node is just detached. -/
def detach (c : Color) (l r : RBNode K V) (path : Path K V) :
    Option (RBNode K V) :=
  match (match l with | .nil => r | _ => l) with
  | .node _ cl ck cv cr => some (plug (.node .black cl ck cv cr) path)
  | .nil =>
    if c = .black then
      (maintain_after_remove path).map (fun p' => plug .nil p')
    else
      some (plug .nil path)

/-- `TreeMap::_remove_node(node)` on the found node, decomposed at `path`;
`sz` is `_size` before the removal.

* Case 1: `_size == 1` → clear the root.
* Case 2 (two children): `prev = node->prev() = left->max()`; `Node::max()`
  starts at the *right child* (`PNode node = right`) and immediately
  dereferences it in the loop guard, so a null `left->right` is undefined
  behaviour (`none`).  Otherwise the predecessor's key/value are copied
  into the node (its frame below carries `pk`, `pv`) and the removal
  continues on the predecessor, which has no right child.
* Cases 3/4: `detach`. -/
def remove_node (c : Color) (l : RBNode K V) (_k : K) (_v : V) (r : RBNode K V)
    (path : Path K V) (sz : Nat) : Option (RBNode K V) :=
  if sz = 1 then some .nil
  else
    match l, r with
    | .node cl ll kl vl lr, .node _ _ _ _ _ =>
      match lr with
      | .nil => none   -- Node::max: `node = right` is null, `node->right` dereferences it
      | .node c2 l2 k2 v2 r2 =>
        match maxPath c2 l2 k2 v2 r2 [] with
        | (pc, pl, pk, pv, fs) =>
          detach pc pl .nil
            (fs ++ ⟨.right, cl, kl, vl, ll⟩ :: ⟨.left, c, pk, pv, r⟩ :: path)
    | _, _ => detach c l r path

/-- `TreeMap::remove(key)`: `_get` with the found continuation running
`_remove_node` and `--_size` then returning `true`, and the not-found
continuation returning `false`. -/
def TreeMap.remove (key : K) (m : TreeMap K V) : Option (Bool × TreeMap K V) :=
  match searchPath key m.root [] with
  | none => some (false, m)
  | some (c, l, k, v, r, p) =>
    (remove_node c l k v r p m.size).map (fun t => (true, ⟨t, m.size - 1⟩))

/-- `IteratorBase::push_lefts(node)`: push the left spine of a subtree onto
the explicit stack (top of stack = head of list). -/
def push_lefts : RBNode K V → List (RBNode K V) → List (RBNode K V)
  | .nil, st => st
  | .node c l k v r, st => push_lefts l (.node c l k v r :: st)

/-- Driving a `KeyIterator` to exhaustion: while the stack is non-empty
(`operator bool`), dereference the top (`KeyDerefer` yields `node->key`)
and step (`operator++`: pop the top, push the left spine of its right
child).  The iteration is paced by `fuel`; `TreeMap.iterateKeys` supplies
enough fuel to drain the stack (each node is popped exactly once).  The
stack never holds null pointers, so the `.nil` case is unreachable. -/
def iterDrain : Nat → List (RBNode K V) → List K
  | 0, _ => []
  | _, [] => []
  | fuel + 1, t :: st =>
    match t with
    | .nil => []
    | .node _ _ k _ r => k :: iterDrain fuel (push_lefts r st)

/-- The number of nodes of a subtree (used only to pace the iteration). -/
def treeCount : RBNode K V → Nat
  | .nil => 0
  | .node _ l _ _ r => treeCount l + 1 + treeCount r

/-- A full pass of `TreeMap::keys` (`key_begin()` = the left spine of the
root, then `operator++` until the stack empties). -/
def TreeMap.iterateKeys (m : TreeMap K V) : List K :=
  iterDrain (treeCount m.root) (push_lefts m.root [])

/-- The in-order key sequence of a subtree (specification side: "the stored
keys in ascending order"). -/
def ikeys : RBNode K V → List K
  | .nil => []
  | .node _ l k _ r => ikeys l ++ k :: ikeys r

/-- Red-black invariant 3 (specification side): no RED node has a RED
child. -/
def noRedRed : RBNode K V → Bool
  | .nil => true
  | .node c l _ _ r =>
    noRedRed l && noRedRed r && !(c = .red && (isRed l || isRed r))

/-- Red-black invariant 4 (specification side): the number of BLACK nodes
is the same on every path to a null reference; `none` when not uniform. -/
def blackHeight : RBNode K V → Option Nat
  | .nil => some 0
  | .node c l _ _ r =>
    match blackHeight l, blackHeight r with
    | some bl, some br =>
      if bl = br then some (bl + (if c = .black then 1 else 0)) else none
    | _, _ => none

/-- Red-black invariant 2 (specification side): the root, if present, is
BLACK. -/
def rootBlack (m : TreeMap K V) : Bool :=
  match m.root with
  | .nil => true
  | .node c _ _ _ _ => c = .black

/-- The keys contributed by a path, to the left of the hole (all keys of
right-direction ancestors and their other subtrees), outermost first. -/
def ctxA : Path K V → List K
  | [] => []
  | ⟨.left, _, _, _, _⟩ :: p => ctxA p
  | ⟨.right, _, k, _, sib⟩ :: p => ctxA p ++ ikeys sib ++ [k]

/-- The keys contributed by a path, to the right of the hole. -/
def ctxB : Path K V → List K
  | [] => []
  | ⟨.left, _, k, _, sib⟩ :: p => k :: ikeys sib ++ ctxB p
  | ⟨.right, _, _, _, _⟩ :: p => ctxB p

/-- The keys an iterator with this stack has yet to produce: for each
stacked node, its key followed by its right subtree's keys (the left
subtree of a stacked node has already been pushed above it /consumed). -/
def stackRem : List (RBNode K V) → List K
  | [] => []
  | .nil :: st => stackRem st
  | .node _ _ k _ r :: st => k :: ikeys r ++ stackRem st

/-- The map states reachable from `TreeMap()` through completed public
mutations: `get_or_insert` (which also implements `set` and the non-const
`operator[]`) and a `remove` that runs to completion. -/
inductive Reachable : TreeMap K V → Prop where
  | empty : Reachable TreeMap.empty
  | insert (key : K) (func : Unit → V) {m : TreeMap K V} :
      Reachable m → Reachable (m.get_or_insert key func).2
  | erase (key : K) {m : TreeMap K V} {b : Bool} {m' : TreeMap K V} :
      Reachable m → m.remove key = some (b, m') → Reachable m'

/-!
State-passing translations of the const-qualified observers.  Each method
body contains no assignment to `root` or `_size` and no write to any node
field, so the translation returns the receiver unchanged next to the
result; the frame theorem below records exactly this.
-/

/-- `TreeMap::get` as a state transformer (const method). -/
def get_st (key : K) (m : TreeMap K V) : Except (KeyNotFound K) V × TreeMap K V :=
  (m.get key, m)

/-- `TreeMap::get_or` as a state transformer (const method). -/
def get_or_st (key : K) (m : TreeMap K V) (f : Unit → V) : V × TreeMap K V :=
  (m.get_or key f, m)

/-- `TreeMap::get_or_else` as a state transformer (const method; no
caller can instantiate it — see `TreeMap.get_or_else` — but its body
performs no writes either way). -/
def get_or_else_st (key : K) (m : TreeMap K V) (d : V) : V × TreeMap K V :=
  (m.get_or_else key d, m)

/-- The const `TreeMap::operator[]` as a state transformer. -/
def indexRead_st (key : K) (m : TreeMap K V) : Except (KeyNotFound K) V × TreeMap K V :=
  (m.indexRead key, m)

/-- A complete pass of the key iterator as a state transformer: the
iterator owns its own stack of (shared) node pointers and `operator++`
writes only to that stack, never to the tree. -/
def iterateKeys_st (m : TreeMap K V) : List K × TreeMap K V :=
  (m.iterateKeys, m)

/-! Concrete maps (over `int` keys and values, as in the demo driver) used
by the concrete claims below. -/

/-- The map after `set 1 10` on an empty map. -/
def mapOne : TreeMap Int Int := (TreeMap.empty.set 1 10).2

/-- The map after inserting keys 2, 1, 3 (in that order). -/
def mapTwoOneThree : TreeMap Int Int :=
  (((TreeMap.empty.set 2 20).2.set 1 10).2.set 3 30).2

/-- The map after inserting keys 1, 3, 2 (in that order): the third insert
is the zig-zag case of the insert fix-up. -/
def mapZigZag : TreeMap Int Int :=
  (((TreeMap.empty.set 1 10).2.set 3 30).2.set 2 20).2

/-- The map holding exactly the keys 1..7 (inserted ascending). -/
def mapOneToSeven : TreeMap Int Int :=
  (((((((TreeMap.empty.set 1 1).2.set 2 2).2.set 3 3).2.set 4 4).2.set
    5 5).2.set 6 6).2.set 7 7).2

/-- The map after inserting keys 2, 1, 3, 4, 5, 6 (in that order). -/
def mapSixKeys : TreeMap Int Int :=
  (((((TreeMap.empty.set 2 2).2.set 1 1).2.set 3 3).2.set 4 4).2.set
    5 5).2.set 6 6 |>.2

/-! ### Basic zipper lemmas -/

@[simp] theorem plug_nil (t : RBNode K V) : plug t [] = t := rfl

@[simp] theorem plug_cons (t : RBNode K V) (f : Frame K V) (p : Path K V) :
    plug t (f :: p) = plug (fill f t) p := rfl

theorem plug_append (p₁ p₂ : Path K V) : ∀ t, plug t (p₁ ++ p₂) = plug (plug t p₁) p₂ := by
  induction p₁ with
  | nil => intro t; rfl
  | cons f p ih => intro t; simp [ih]

@[simp] theorem fill_left (c : Color) (k : K) (v : V) (sib t : RBNode K V) :
    fill ⟨.left, c, k, v, sib⟩ t = .node c t k v sib := rfl

@[simp] theorem fill_right (c : Color) (k : K) (v : V) (sib t : RBNode K V) :
    fill ⟨.right, c, k, v, sib⟩ t = .node c sib k v t := rfl

@[simp] theorem ikeys_nil : ikeys (.nil : RBNode K V) = [] := rfl

@[simp] theorem ikeys_node (c : Color) (l : RBNode K V) (k : K) (v : V) (r : RBNode K V) :
    ikeys (.node c l k v r) = ikeys l ++ k :: ikeys r := rfl

@[simp] theorem ikeys_paintBlack (t : RBNode K V) : ikeys (paintBlack t) = ikeys t := by
  cases t <;> rfl

theorem ikeys_fill (f : Frame K V) (t : RBNode K V) :
    ikeys (fill f t) =
      match f.d with
      | .left => ikeys t ++ f.k :: ikeys f.sib
      | .right => ikeys f.sib ++ f.k :: ikeys t := by
  obtain ⟨d, c, k, v, sib⟩ := f
  cases d <;> rfl

theorem ikeys_plug (p : Path K V) : ∀ t, ikeys (plug t p) = ctxA p ++ ikeys t ++ ctxB p := by
  induction p with
  | nil => intro t; simp [ctxA, ctxB]
  | cons f p ih =>
    obtain ⟨d, c, k, v, sib⟩ := f
    cases d <;> intro t <;> simp [ctxA, ctxB, ih, List.append_assoc]

/-- Replacing the focus by one with the same in-order keys preserves the
in-order keys of the whole tree. -/
theorem ikeys_plug_congr {t t' : RBNode K V} (p : Path K V) (h : ikeys t = ikeys t') :
    ikeys (plug t p) = ikeys (plug t' p) := by
  simp [ikeys_plug, h]

/-- Replacing the focus by one whose in-order keys form a sublist gives a
sublist of the whole tree's in-order keys. -/
theorem ikeys_plug_sublist {t t' : RBNode K V} (p : Path K V)
    (h : (ikeys t).Sublist (ikeys t')) :
    (ikeys (plug t p)).Sublist (ikeys (plug t' p)) := by
  simp only [ikeys_plug, List.append_assoc]
  exact (h.append_right _).append_left _

theorem ctxA_append (p₁ p₂ : Path K V) : ctxA (p₁ ++ p₂) = ctxA p₂ ++ ctxA p₁ := by
  induction p₁ with
  | nil => simp [ctxA]
  | cons f p ih =>
    obtain ⟨d, c, k, v, sib⟩ := f
    cases d <;> simp [ctxA, ih]

theorem ctxB_append (p₁ p₂ : Path K V) : ctxB (p₁ ++ p₂) = ctxB p₁ ++ ctxB p₂ := by
  induction p₁ with
  | nil => simp [ctxB]
  | cons f p ih =>
    obtain ⟨d, c, k, v, sib⟩ := f
    cases d <;> simp [ctxB, ih]

/-! ### The insert fix-up preserves the in-order key sequence -/

/-! ### The insert fix-up preserves the in-order key sequence -/

theorem maintain_after_insert_ikeys (n : RBNode K V) (p : Path K V) :
    ikeys (maintain_after_insert n p) = ikeys (plug n p) := by
  induction n, p using maintain_after_insert.induct (K := K) (V := V) with
  | case1 n => rfl
  | case2 n f p h =>
    rw [maintain_after_insert.eq_def]
    simp [h]
  | case3 n f h =>
    rw [maintain_after_insert.eq_def]
    obtain ⟨fd, fc, fk, fv, fs⟩ := f
    simp only at h
    cases fd <;> simp [h]
  | case4 n f h g p' hu ih =>
    rw [maintain_after_insert.eq_def]
    simp only [h, if_false, hu, if_true]
    rw [ih]
    obtain ⟨fd, fc, fk, fv, fs⟩ := f
    obtain ⟨gd, gc, gk, gv, gs⟩ := g
    cases fd <;> cases gd <;>
      simp [ikeys_plug, List.append_assoc]
  | case5 n f h g p' hu hfd hgd =>
    rw [maintain_after_insert.eq_def]
    obtain ⟨fd, fc, fk, fv, fs⟩ := f
    obtain ⟨gd, gc, gk, gv, gs⟩ := g
    simp only at h hu hfd hgd
    subst hfd; subst hgd
    simp [h, hu, ikeys_plug, List.append_assoc]
  | case6 n f h g p' hu hfd hgd =>
    rw [maintain_after_insert.eq_def]
    obtain ⟨fd, fc, fk, fv, fs⟩ := f
    obtain ⟨gd, gc, gk, gv, gs⟩ := g
    simp only at h hu hfd hgd
    subst hfd; subst hgd
    simp [h, hu, ikeys_plug, List.append_assoc]
  | case7 f h g p' hu hfd hgd =>
    rw [maintain_after_insert.eq_def]
    obtain ⟨fd, fc, fk, fv, fs⟩ := f
    obtain ⟨gd, gc, gk, gv, gs⟩ := g
    simp only at h hu hfd hgd
    subst hfd; subst hgd
    simp [h, hu]
  | case8 f h g p' hu hfd hgd c l k v r =>
    rw [maintain_after_insert.eq_def]
    obtain ⟨fd, fc, fk, fv, fs⟩ := f
    obtain ⟨gd, gc, gk, gv, gs⟩ := g
    simp only at h hu hfd hgd
    subst hfd; subst hgd
    simp [h, hu, ikeys_plug, List.append_assoc]
  | case9 f h g p' hu hfd hgd =>
    rw [maintain_after_insert.eq_def]
    obtain ⟨fd, fc, fk, fv, fs⟩ := f
    obtain ⟨gd, gc, gk, gv, gs⟩ := g
    simp only at h hu hfd hgd
    subst hfd; subst hgd
    simp [h, hu]
  | case10 f h g p' hu hfd hgd c l k v r =>
    rw [maintain_after_insert.eq_def]
    obtain ⟨fd, fc, fk, fv, fs⟩ := f
    obtain ⟨gd, gc, gk, gv, gs⟩ := g
    simp only at h hu hfd hgd
    subst hfd; subst hgd
    simp [h, hu, ikeys_plug, List.append_assoc]

/-! ### Sortedness helpers -/

theorem sorted_of_sorted_plug (p : Path K V) {t : RBNode K V}
    (hs : List.Sorted (· < ·) (ikeys (plug t p))) : List.Sorted (· < ·) (ikeys t) := by
  rw [ikeys_plug] at hs
  exact (List.pairwise_append.mp (List.pairwise_append.mp hs).1).2.1

theorem sorted_node_parts {c : Color} {l : RBNode K V} {k : K} {v : V} {r : RBNode K V}
    (hs : List.Sorted (· < ·) (ikeys (.node c l k v r))) :
    List.Sorted (· < ·) (ikeys l) ∧ List.Sorted (· < ·) (ikeys r) ∧
      (∀ a ∈ ikeys l, a < k) ∧ (∀ b ∈ ikeys r, k < b) := by
  rw [ikeys_node] at hs
  obtain ⟨hl, hkr, hcross⟩ := List.pairwise_append.mp hs
  obtain ⟨hk, hr⟩ := List.pairwise_cons.mp hkr
  exact ⟨hl, hr, fun a ha => hcross a ha k (List.mem_cons_self k _), hk⟩

/-! ### Search -/

/-- A successful `_get` search reconstructs the tree it searched. -/
theorem search_plug (key : K) :
    ∀ (t : RBNode K V) (acc : Path K V) (c : Color) (l : RBNode K V) (k₀ : K) (v : V)
      (r : RBNode K V) (p : Path K V),
      searchPath key t acc = some (c, l, k₀, v, r, p) →
      plug (.node c l k₀ v r) p = plug t acc := by
  intro t
  induction t with
  | nil => intro acc c l k₀ v r p h; simp [searchPath] at h
  | node c' l' k' v' r' ihl ihr =>
    intro acc c l k₀ v r p h
    rw [searchPath] at h
    by_cases heq : key = k'
    · subst heq
      rw [if_pos rfl] at h
      simp only [Option.some.injEq, Prod.mk.injEq] at h
      obtain ⟨h1, h2, h3, h4, h5, h6⟩ := h
      subst h1; subst h2; subst h3; subst h4; subst h5; subst h6
      rfl
    · by_cases hlt : key < k'
      · simp only [if_neg heq, if_pos hlt] at h
        exact ihl _ _ _ _ _ _ _ h
      · simp only [if_neg heq, if_neg hlt] at h
        exact ihr _ _ _ _ _ _ _ h

/-- A successful search returns the searched key. -/
theorem search_key (key : K) :
    ∀ (t : RBNode K V) (acc : Path K V) (c : Color) (l : RBNode K V) (k₀ : K) (v : V)
      (r : RBNode K V) (p : Path K V),
      searchPath key t acc = some (c, l, k₀, v, r, p) → k₀ = key := by
  intro t
  induction t with
  | nil => intro acc c l k₀ v r p h; simp [searchPath] at h
  | node c' l' k' v' r' ihl ihr =>
    intro acc c l k₀ v r p h
    rw [searchPath] at h
    by_cases heq : key = k'
    · subst heq
      rw [if_pos rfl] at h
      simp only [Option.some.injEq, Prod.mk.injEq] at h
      exact h.2.2.1.symm
    · by_cases hlt : key < k'
      · simp only [if_neg heq, if_pos hlt] at h
        exact ihl _ _ _ _ _ _ _ h
      · simp only [if_neg heq, if_neg hlt] at h
        exact ihr _ _ _ _ _ _ _ h

/-- A key that is not stored is never found (on any tree: the search only
reports equality with a visited node's key). -/
theorem search_not_mem (key : K) :
    ∀ (t : RBNode K V) (acc : Path K V), key ∉ ikeys t → searchPath key t acc = none := by
  intro t
  induction t with
  | nil => intro acc _; rfl
  | node c' l' k' v' r' ihl ihr =>
    intro acc hm
    have hne : key ≠ k' := by
      intro e; exact hm (by simp [e])
    rw [searchPath]
    by_cases hlt : key < k'
    · simp only [if_neg hne, if_pos hlt]
      exact ihl _ (fun hmem => hm (by simp [hmem]))
    · simp only [if_neg hne, if_neg hlt]
      exact ihr _ (fun hmem => hm (by simp [hmem]))

/-! ### `_get_or_insert` on an existing key -/

/-- When the search finds `key`, `_get_or_insert` takes the same path,
invokes nothing, and returns the stored value with the tree rebuilt
unchanged. -/
theorem goi_found (key : K) (func : Unit → V) :
    ∀ (t : RBNode K V) (acc : Path K V) (c : Color) (l : RBNode K V) (k₀ : K) (v : V)
      (r : RBNode K V) (p : Path K V),
      searchPath key t acc = some (c, l, k₀, v, r, p) →
      goiAux key func t acc = (v, plug t acc, false) := by
  intro t
  induction t with
  | nil => intro acc c l k₀ v r p h; simp [searchPath] at h
  | node c' l' k' v' r' ihl ihr =>
    intro acc c l k₀ v r p h
    rw [searchPath] at h
    by_cases heq : key = k'
    · subst heq
      rw [if_pos rfl] at h
      simp only [Option.some.injEq, Prod.mk.injEq] at h
      obtain ⟨h1, h2, h3, h4, h5, h6⟩ := h
      subst h4
      rw [goiAux, if_neg (lt_irrefl _), if_neg (lt_irrefl _)]
    · by_cases hlt : key < k'
      · simp only [if_neg heq, if_pos hlt] at h
        rw [goiAux, if_pos hlt]
        exact ihl _ _ _ _ _ _ _ h
      · have hgt : k' < key := lt_of_le_of_ne (not_lt.mp hlt) (Ne.symm heq)
        simp only [if_neg heq, if_neg hlt] at h
        rw [goiAux, if_neg hlt, if_pos hgt]
        exact ihr _ _ _ _ _ _ _ h
/-! ### Insertion preserves sortedness -/

theorem sorted_insert_mid {A B : List K} {key : K}
    (hs : List.Sorted (· < ·) (A ++ B))
    (hA : ∀ a ∈ A, a < key) (hB : ∀ b ∈ B, key < b) :
    List.Sorted (· < ·) (A ++ key :: B) := by
  obtain ⟨hA', hB', hcross⟩ := List.pairwise_append.mp hs
  refine List.pairwise_append.mpr ⟨hA', List.pairwise_cons.mpr ⟨hB, hB'⟩, ?_⟩
  intro a ha b hb
  rcases List.mem_cons.mp hb with rfl | hb'
  · exact hA a ha
  · exact hcross a ha b hb'

/-- The descent of `_get_or_insert` keeps the whole tree sorted: the new
node lands where the comparisons sent it, and the fix-up only rearranges
(`maintain_after_insert_ikeys`). -/
theorem goiAux_sorted (key : K) (func : Unit → V) :
    ∀ (t : RBNode K V) (p : Path K V),
      List.Sorted (· < ·) (ikeys (plug t p)) →
      (∀ a ∈ ctxA p, a < key) → (∀ b ∈ ctxB p, key < b) →
      List.Sorted (· < ·) (ikeys ((goiAux key func t p).2.1)) := by
  intro t
  induction t with
  | nil =>
    intro p hs hA hB
    rw [goiAux]
    dsimp only
    rw [maintain_after_insert_ikeys, ikeys_plug]
    rw [ikeys_plug] at hs
    simp only [ikeys_nil, ikeys_node, List.append_nil, List.nil_append] at hs ⊢
    simpa [List.append_assoc] using sorted_insert_mid hs hA hB
  | node c' l' k' v' r' ihl ihr =>
    intro p hs hA hB
    have hparts := sorted_node_parts (sorted_of_sorted_plug p hs)
    rw [goiAux]
    by_cases hlt : key < k'
    · rw [if_pos hlt]
      refine ihl (⟨.left, c', k', v', r'⟩ :: p) hs ?_ ?_
      · simpa [ctxA] using hA
      · intro b hb
        simp only [ctxB, List.mem_cons, List.mem_append] at hb
        rcases hb with (rfl | hb) | hb
        · exact hlt
        · exact lt_trans hlt (hparts.2.2.2 b hb)
        · exact hB b hb
    · by_cases hgt : k' < key
      · rw [if_neg hlt, if_pos hgt]
        refine ihr (⟨.right, c', k', v', l'⟩ :: p) hs ?_ ?_
        · intro a ha
          simp only [ctxA, List.mem_append, List.mem_singleton] at ha
          rcases ha with (ha | ha) | rfl
          · exact hA a ha
          · exact lt_trans (hparts.2.2.1 a ha) hgt
          · exact hgt
        · simpa [ctxB] using hB
      · rw [if_neg hlt, if_neg hgt]
        exact hs

/-- `get_or_insert` (and hence `set` and the non-const `operator[]`) keeps
the stored keys sorted. -/
theorem goi_root_sorted (key : K) (func : Unit → V) {m : TreeMap K V}
    (hs : List.Sorted (· < ·) (ikeys m.root)) :
    List.Sorted (· < ·) (ikeys ((m.get_or_insert key func).2.root)) := by
  have h := goiAux_sorted key func m.root [] (by simpa using hs)
    (by intro a ha; simp [ctxA] at ha) (by intro b hb; simp [ctxB] at hb)
  rw [TreeMap.get_or_insert]
  rcases hg : goiAux key func m.root [] with ⟨v, t, cr⟩
  rw [hg] at h
  simpa using h
/-! ### The remove fix-up preserves the in-order key sequence -/

theorem mar_case45_ikeys (d : Dir) (cp c₀ cs : Color) (kp : K) (vp : V)
    (s1 : RBNode K V) (ks : K) (vs : V) (s2 : RBNode K V) (pr : Path K V)
    (p' : Path K V) (h : mar_case45 d cp kp vp s1 ks vs s2 pr = some p') :
    ∀ t, ikeys (plug t p') = ikeys (plug t (⟨d, c₀, kp, vp, .node cs s1 ks vs s2⟩ :: pr)) := by
  cases d
  case left =>
    rcases s1 with _ | ⟨cs1, c1, kc, vc, c2⟩
    · rcases s2 with _ | ⟨cs2, d1, kd, vd, d2⟩
      · simp [mar_case45] at h
      · simp only [mar_case45, Option.some.injEq] at h
        subst h
        intro t
        simp [ikeys_plug, ctxA, ctxB, List.append_assoc]
    · cases cs1
      case red =>
        simp only [mar_case45, Option.some.injEq] at h
        subst h
        intro t
        simp [ikeys_plug, ctxA, ctxB, List.append_assoc]
      case black =>
        rcases s2 with _ | ⟨cs2, d1, kd, vd, d2⟩
        · simp [mar_case45] at h
        · simp only [mar_case45, Option.some.injEq] at h
          subst h
          intro t
          simp [ikeys_plug, ctxA, ctxB, List.append_assoc]
  case right =>
    rcases s2 with _ | ⟨cs2, c1, kc, vc, c2⟩
    · rcases s1 with _ | ⟨cs1, d1, kd, vd, d2⟩
      · simp [mar_case45] at h
      · simp only [mar_case45, Option.some.injEq] at h
        subst h
        intro t
        simp [ikeys_plug, ctxA, ctxB, List.append_assoc]
    · cases cs2
      case red =>
        simp only [mar_case45, Option.some.injEq] at h
        subst h
        intro t
        simp [ikeys_plug, ctxA, ctxB, List.append_assoc]
      case black =>
        rcases s1 with _ | ⟨cs1, d1, kd, vd, d2⟩
        · simp [mar_case45] at h
        · simp only [mar_case45, Option.some.injEq] at h
          subst h
          intro t
          simp [ikeys_plug, ctxA, ctxB, List.append_assoc]
theorem mar_ikeys :
    ∀ (p p' : Path K V), maintain_after_remove p = some p' →
      ∀ t, ikeys (plug t p') = ikeys (plug t p) := by
  intro p
  induction p with
  | nil => intro p' h; simp [maintain_after_remove] at h
  | cons f p ih =>
    intro p' h t
    obtain ⟨fd, fc, fk, fv, fsib⟩ := f
    rcases fsib with _ | ⟨cs, s1, ks, vs, s2⟩
    · rw [maintain_after_remove.eq_def] at h
      simp at h
    · cases cs
      case red =>
        cases fd
        case left =>
          rcases s1 with _ | ⟨cc, c1, kc, vc, c2⟩
          · rw [maintain_after_remove.eq_def] at h
            simp at h
          · rw [maintain_after_remove.eq_def] at h
            dsimp only at h
            rw [if_pos rfl] at h
            by_cases hbb : (!isRed c1 && !isRed c2) = true
            · rw [if_pos hbb, Option.some.injEq] at h
              subst h
              simp [ikeys_plug, ctxA, ctxB, List.append_assoc]
            · rw [if_neg hbb] at h
              rw [mar_case45_ikeys _ _ fc cc _ _ _ _ _ _ _ _ h t]
              simp [ikeys_plug, ctxA, ctxB, List.append_assoc]
        case right =>
          rcases s2 with _ | ⟨cc, c1, kc, vc, c2⟩
          · rw [maintain_after_remove.eq_def] at h
            simp at h
          · rw [maintain_after_remove.eq_def] at h
            dsimp only at h
            rw [if_pos rfl] at h
            by_cases hbb : (!isRed c2 && !isRed c1) = true
            · rw [if_pos hbb, Option.some.injEq] at h
              subst h
              simp [ikeys_plug, ctxA, ctxB, List.append_assoc]
            · rw [if_neg hbb] at h
              rw [mar_case45_ikeys _ _ fc cc _ _ _ _ _ _ _ _ h t]
              simp [ikeys_plug, ctxA, ctxB, List.append_assoc]
      case black =>
        cases fd
        case left =>
          rw [maintain_after_remove.eq_def] at h
          dsimp only at h
          rw [if_neg (by simp)] at h
          by_cases hbb : (!isRed s1 && !isRed s2) = true
          · rw [if_pos hbb] at h
            by_cases hfc : fc = Color.red
            · rw [if_pos hfc, Option.some.injEq] at h
              subst h
              simp [ikeys_plug, ctxA, ctxB, List.append_assoc]
            · rw [if_neg hfc] at h
              rcases hm : maintain_after_remove p with _ | p₂
              · rw [hm] at h; simp at h
              · rw [hm, Option.map_some'] at h
                rw [Option.some.injEq] at h
                subst h
                rw [plug_cons, ih p₂ hm (fill ⟨Dir.left, fc, fk, fv, .node .red s1 ks vs s2⟩ t)]
                simp [ikeys_plug, ctxA, ctxB, List.append_assoc]
          · rw [if_neg hbb] at h
            exact mar_case45_ikeys _ _ fc Color.black _ _ _ _ _ _ _ _ h t
        case right =>
          rw [maintain_after_remove.eq_def] at h
          dsimp only at h
          rw [if_neg (by simp)] at h
          by_cases hbb : (!isRed s2 && !isRed s1) = true
          · rw [if_pos hbb] at h
            by_cases hfc : fc = Color.red
            · rw [if_pos hfc, Option.some.injEq] at h
              subst h
              simp [ikeys_plug, ctxA, ctxB, List.append_assoc]
            · rw [if_neg hfc] at h
              rcases hm : maintain_after_remove p with _ | p₂
              · rw [hm] at h; simp at h
              · rw [hm, Option.map_some'] at h
                rw [Option.some.injEq] at h
                subst h
                rw [plug_cons, ih p₂ hm (fill ⟨Dir.right, fc, fk, fv, .node .red s1 ks vs s2⟩ t)]
                simp [ikeys_plug, ctxA, ctxB, List.append_assoc]
          · rw [if_neg hbb] at h
            exact mar_case45_ikeys _ _ fc Color.black _ _ _ _ _ _ _ _ h t

/-! ### `remove` only deletes: the surviving keys are a sublist -/

theorem maxPath_plug :
    ∀ (r : RBNode K V) (c : Color) (l : RBNode K V) (k : K) (v : V) (acc : Path K V),
      plug (.node (maxPath c l k v r acc).1 (maxPath c l k v r acc).2.1
          (maxPath c l k v r acc).2.2.1 (maxPath c l k v r acc).2.2.2.1 .nil)
        (maxPath c l k v r acc).2.2.2.2 = plug (.node c l k v r) acc := by
  intro r
  induction r with
  | nil => intro c l k v acc; rfl
  | node cr rl kr vr rr ihl ihr =>
    intro c l k v acc
    rw [maxPath]
    rw [ihr]
    rfl

theorem maxPath_ctxB :
    ∀ (r : RBNode K V) (c : Color) (l : RBNode K V) (k : K) (v : V) (acc : Path K V),
      ctxB (maxPath c l k v r acc).2.2.2.2 = ctxB acc := by
  intro r
  induction r with
  | nil => intro c l k v acc; rfl
  | node cr rl kr vr rr ihl ihr =>
    intro c l k v acc
    rw [maxPath, ihr]
    rfl

theorem sublist_insert_one (L M : List K) (k : K) :
    (L ++ M).Sublist (L ++ k :: M) :=
  (List.sublist_cons_self k M).append_left L

/-- What `detach` leaves in the hole: the node's only child (or nothing);
the fix-up and recolouring do not change any keys. -/
theorem detach_ikeys {c : Color} {l r : RBNode K V} {path : Path K V} {t : RBNode K V}
    (h : detach c l r path = some t) :
    ikeys t = ikeys (plug (match l with | .nil => r | _ => l) path) := by
  rcases l with _ | ⟨cl, ll, kl, vl, lr⟩
  · rcases r with _ | ⟨cr, rl, kr, vr, rr⟩
    · -- childless: fix-up when black, plain detach when red
      rw [detach.eq_def] at h
      dsimp only at h
      by_cases hc : c = Color.black
      · rw [if_pos hc] at h
        rcases hm : maintain_after_remove path with _ | p'
        · rw [hm] at h; simp at h
        · rw [hm, Option.map_some', Option.some.injEq] at h
          subst h
          exact mar_ikeys path p' hm .nil
      · rw [if_neg hc, Option.some.injEq] at h
        subst h
        rfl
    · rw [detach.eq_def] at h
      dsimp only at h
      rw [Option.some.injEq] at h
      subst h
      exact ikeys_plug_congr path rfl
  · rw [detach.eq_def] at h
    dsimp only at h
    rw [Option.some.injEq] at h
    subst h
    exact ikeys_plug_congr path rfl

theorem remove_node_sublist {c : Color} {l : RBNode K V} {k : K} {v : V} {r : RBNode K V}
    {path : Path K V} {sz : Nat} {t : RBNode K V}
    (h : remove_node c l k v r path sz = some t) :
    (ikeys t).Sublist (ikeys (plug (.node c l k v r) path)) := by
  rw [remove_node.eq_def] at h
  by_cases hsz : sz = 1
  · rw [if_pos hsz, Option.some.injEq] at h
    subst h
    exact List.nil_sublist _
  · rw [if_neg hsz] at h
    rcases l with _ | ⟨cl, ll, kl, vl, lr⟩
    · -- no left child
      dsimp only at h
      rw [detach_ikeys h]
      refine ikeys_plug_sublist path ?_
      cases r <;> simp
    · rcases r with _ | ⟨cr, rl, kr, vr, rr⟩
      · -- no right child
        dsimp only at h
        rw [detach_ikeys h]
        exact ikeys_plug_sublist path (by simp)
      · -- two children: go through the predecessor
        rcases lr with _ | ⟨c2, l2, k2, v2, r2⟩
        · dsimp only at h
          simp at h
        · dsimp only at h
          rcases hmp : maxPath c2 l2 k2 v2 r2 ([] : Path K V) with ⟨pc, pl, pk, pv, fs⟩
          rw [hmp] at h
          dsimp only at h
          have hB : ctxB fs = ([] : List K) := by
            have hx := maxPath_ctxB (K := K) (V := V) r2 c2 l2 k2 v2 []
            rw [hmp] at hx
            exact hx
          have hlr : ikeys (.node c2 l2 k2 v2 r2 : RBNode K V) = ctxA fs ++ ikeys pl ++ [pk] := by
            have hx := maxPath_plug (K := K) (V := V) r2 c2 l2 k2 v2 []
            rw [hmp] at hx
            dsimp only at hx
            rw [plug_nil] at hx
            rw [← hx, ikeys_plug, hB]
            simp
          rw [detach_ikeys h]
          have e1 : ikeys (plug (match pl with | RBNode.nil => (RBNode.nil : RBNode K V) | _ => pl)
              (fs ++ ⟨.right, cl, kl, vl, ll⟩ :: ⟨.left, c, pk, pv, .node cr rl kr vr rr⟩ :: path)) =
              (ctxA path ++ ikeys ll ++ kl :: (ctxA fs ++ ikeys pl ++ [pk])) ++
                (ikeys (.node cr rl kr vr rr : RBNode K V) ++ ctxB path) := by
            rw [plug_append]
            have hpl : ikeys (plug (match pl with | RBNode.nil => (RBNode.nil : RBNode K V) | _ => pl) fs) =
                ctxA fs ++ ikeys pl := by
              rw [ikeys_plug, hB]
              cases pl <;> simp
            simp [ikeys_plug, hpl, List.append_assoc]
          have e2 : ikeys (plug (.node c (.node cl ll kl vl (.node c2 l2 k2 v2 r2)) k v
              (.node cr rl kr vr rr)) path) =
              (ctxA path ++ ikeys ll ++ kl :: (ctxA fs ++ ikeys pl ++ [pk])) ++
                (k :: (ikeys (.node cr rl kr vr rr : RBNode K V) ++ ctxB path)) := by
            simp [ikeys_plug, hlr, List.append_assoc]
          rw [e1, e2]
          exact sublist_insert_one _ _ k


/-- Whatever `remove` returns, the stored keys of the result are a sublist
of the original stored keys (equal when the key was absent). -/
theorem remove_root_sublist (key : K) {m : TreeMap K V} {b : Bool} {m' : TreeMap K V}
    (h : m.remove key = some (b, m')) :
    (ikeys m'.root).Sublist (ikeys m.root) := by
  rw [TreeMap.remove] at h
  rcases hsp : searchPath key m.root [] with _ | ⟨c, l, k₀, v, r, p⟩
  · rw [hsp] at h
    dsimp only at h
    rw [Option.some.injEq, Prod.mk.injEq] at h
    rw [← h.2]
  · rw [hsp] at h
    dsimp only at h
    have hplug : plug (.node c l k₀ v r) p = m.root := by
      simpa using search_plug key m.root [] _ _ _ _ _ _ hsp
    rcases hrn : remove_node c l k₀ v r p m.size with _ | t
    · rw [hrn] at h; simp at h
    · rw [hrn, Option.map_some', Option.some.injEq, Prod.mk.injEq] at h
      have hroot : m'.root = t := by rw [← h.2]
      rw [hroot, ← hplug]
      exact remove_node_sublist hrn

/-! ### The key iterator produces exactly the in-order key sequence -/

theorem push_lefts_stackRem :
    ∀ (t : RBNode K V) (st : List (RBNode K V)),
      stackRem (push_lefts t st) = ikeys t ++ stackRem st := by
  intro t
  induction t with
  | nil => intro st; simp [push_lefts]
  | node c l k v r ihl ihr =>
    intro st
    rw [push_lefts, ihl]
    simp [stackRem, List.append_assoc]

theorem push_lefts_no_nil :
    ∀ (t : RBNode K V) (st : List (RBNode K V)),
      (∀ x ∈ st, x ≠ RBNode.nil) → ∀ x ∈ push_lefts t st, x ≠ RBNode.nil := by
  intro t
  induction t with
  | nil => intro st h; exact h
  | node c l k v r ihl ihr =>
    intro st h
    rw [push_lefts]
    refine ihl _ ?_
    intro x hx
    rcases List.mem_cons.mp hx with rfl | hx'
    · simp
    · exact h x hx'

theorem iterDrain_stackRem :
    ∀ (fuel : Nat) (st : List (RBNode K V)),
      (∀ x ∈ st, x ≠ RBNode.nil) → (stackRem st).length ≤ fuel →
      iterDrain fuel st = stackRem st := by
  intro fuel
  induction fuel with
  | zero =>
    intro st hn hl
    rw [List.eq_nil_of_length_eq_zero (Nat.le_zero.mp hl)]
    cases st <;> rfl
  | succ fuel ih =>
    intro st hn hl
    rcases st with _ | ⟨t, st⟩
    · rfl
    · rcases t with _ | ⟨c, l, k, v, r⟩
      · exact absurd rfl (hn _ (by simp))
      · rw [iterDrain, stackRem]
        rw [ih (push_lefts r st)
          (push_lefts_no_nil r st (fun x hx => hn x (List.mem_cons_of_mem _ hx)))
          (by
            rw [push_lefts_stackRem]
            have := hl
            rw [stackRem] at this
            simpa using Nat.le_of_succ_le_succ (by simpa using this)),
          push_lefts_stackRem]
        simp

theorem ikeys_length_treeCount : ∀ (t : RBNode K V), (ikeys t).length = treeCount t := by
  intro t
  induction t with
  | nil => rfl
  | node c l k v r ihl ihr =>
    simp [treeCount, ihl, ihr]
    omega

/-- Driving the key iterator to exhaustion yields exactly the in-order key
sequence, on every map. -/
theorem iterateKeys_eq (m : TreeMap K V) : m.iterateKeys = ikeys m.root := by
  rw [TreeMap.iterateKeys]
  rw [iterDrain_stackRem _ _ (push_lefts_no_nil m.root [] (by simp)) ?_]
  · rw [push_lefts_stackRem]
    simp [stackRem]
  · rw [push_lefts_stackRem]
    simp [stackRem, ikeys_length_treeCount]

/-! ### All reachable maps are sorted -/

theorem reachable_sorted {m : TreeMap K V} (h : Reachable m) :
    List.Sorted (· < ·) (ikeys m.root) := by
  induction h with
  | empty => simp [TreeMap.empty]
  | insert key func hm ih => exact goi_root_sorted key func ih
  | erase key hm heq ih => exact List.Pairwise.sublist (remove_root_sublist key heq) ih

/-! ### Claim theorems -/

/-- Claim C1.  The claim states that after every completed insert or
remove no RED node has a RED child.  The code violates it: after inserting
keys 1, 3, 2 (the third insert runs fix-up case 5 in its zig-zag form,
which recolours the demoted original parent instead of the promoted node),
the tree has a RED root with key 2 whose left child with key 1 is RED. -/
theorem claim_red_red_violation : noRedRed mapZigZag.root = false := by decide

/-- Claim C2.  The claim states that after every completed operation all
root-to-null paths carry the same number of BLACK nodes.  The same three
inserts 1, 3, 2 refute it: in the resulting tree the path through key 1
passes 0 BLACK nodes and the path through key 3 passes 1. -/
theorem claim_black_height_violation : blackHeight mapZigZag.root = none := by decide

/-- Claim C3, counterexample.  The claim states the root is BLACK after
each completed operation because the insert fix-up recolours a parentless
node BLACK.  In fact the fix-up returns a parentless node unchanged, so
after the single insert `set 1 10` into the empty map the root is RED. -/
theorem claim_root_red_counterexample : rootBlack mapOne = false := by decide

/-- Claim C3, amended.  The insert fix-up leaves a node with no parent
unchanged (it does not recolour it BLACK), so the root may be RED after a
completed operation: the first insertion into an empty map yields a RED
root.  A RED root is recoloured BLACK by the next insertion whose new node
hangs directly under it (fix-up case 3). -/
theorem claim_root_color_amended (k k' : K) (v v' : V) (h : k' ≠ k) :
    (∀ n : RBNode K V, maintain_after_insert n [] = n) ∧
    (TreeMap.empty.set k v).2.root = .node .red .nil k v .nil ∧
    rootBlack ((TreeMap.empty.set k v).2.set k' v').2 = true := by
  refine ⟨fun n => rfl, rfl, ?_⟩
  rcases lt_trichotomy k' k with hlt | heq | hgt
  · simp [TreeMap.set, TreeMap.get_or_insert, goiAux, maintain_after_insert.eq_def,
      hlt, rootBlack]
  · exact absurd heq h
  · simp [TreeMap.set, TreeMap.get_or_insert, goiAux, maintain_after_insert.eq_def,
      hgt, (lt_asymm hgt : ¬k' < k), rootBlack]

/-- Witness for the amended claim C3 at keys 1 and 2. -/
theorem claim_root_color_amended_witness :
    ((2 : Int) ≠ 1) ∧
      rootBlack (((TreeMap.empty.set (1 : Int) (10 : Int)).2.set 2 20).2 : TreeMap Int Int) = true :=
  ⟨by decide, (claim_root_color_amended 1 2 10 20 (by decide)).2.2⟩

/-- Claim C4.  The claim states `set(K, V)` on an existing key overwrites
the stored value.  It does not: `set` delegates to `get_or_insert`, whose
found branch returns the existing value without assigning, so after
`set 1 10; set 1 20` the call returns 10, the map is unchanged, and
`get 1` still yields 10 (the claim expects 20).  The size part of the
claim (no new node) does hold. -/
theorem claim_set_does_not_overwrite :
    mapOne.set 1 20 = (10, mapOne) ∧ (mapOne.set 1 20).2.get 1 = .ok 10 := by
  exact ⟨by decide, by rfl⟩

/-- Claim C5.  The claim states inserting K then `get(K)` yields V, and
`remove(K)` then `get(K)` fails with not-found.  The remove leg is
unreachable on this input: on the map built by inserting 2, 1, 3,
`remove(2)` finds a node with two children and calls `prev()`;
`Node::max()` starts at the null right child of the left child and
dereferences it — undefined behaviour (modelled `none`), so no `get` can
follow. -/
theorem claim_remove_crash_two_children : mapTwoOneThree.remove 2 = none := by decide

/-- Claim C6.  On a key that is already present, `get_or_insert` returns
the stored value and leaves the map (tree, value, size) unchanged, and the
value factory is never invoked: the result does not depend on it. -/
theorem claim_get_or_insert_idempotent (m : TreeMap K V) (key : K) (f g : Unit → V)
    (c : Color) (l : RBNode K V) (k₀ : K) (v : V) (r : RBNode K V) (p : Path K V)
    (h : searchPath key m.root [] = some (c, l, k₀, v, r, p)) :
    m.get_or_insert key f = (v, m) ∧ m.get_or_insert key f = m.get_or_insert key g := by
  have hf := goi_found key f m.root [] _ _ _ _ _ _ h
  have hg := goi_found key g m.root [] _ _ _ _ _ _ h
  constructor
  · rw [TreeMap.get_or_insert, hf]
    rfl
  · rw [TreeMap.get_or_insert, TreeMap.get_or_insert, hf, hg]

/-- Witness for claim C6: on `{1 ↦ 10}`, `get_or_insert 1` with two
different factories returns `(10, the unchanged map)` both times. -/
theorem claim_get_or_insert_idempotent_witness :
    searchPath (1 : Int) mapOne.root [] = some (.red, .nil, 1, 10, .nil, []) ∧
      (mapOne.get_or_insert 1 (fun _ => 99) = (10, mapOne) ∧
        mapOne.get_or_insert 1 (fun _ => 99) = mapOne.get_or_insert 1 (fun _ => 77)) :=
  ⟨by rfl,
    claim_get_or_insert_idempotent mapOne 1 (fun _ => 99) (fun _ => 77)
      .red .nil 1 10 .nil [] (by rfl)⟩

/-- On any map, the strict `get` of a key that is not stored fails with
the key-not-found error. -/
theorem get_not_found (m : TreeMap K V) (key : K) (h : key ∉ ikeys m.root) :
    m.get key = .error ⟨key⟩ := by
  rw [TreeMap.get, search_not_mem key m.root [] h]

/-- Claim C7.  The claim asserts that on a map holding exactly the keys
1..7 the strict `get(9)` fails with a key-not-found error while
`get_or_else(9, -1)` returns -1 without error.  The second half cannot be
exhibited by the program: no call of the C++ `get_or_else` compiles (its
fallback lambda returns `V` by value, which cannot bind to `get_or`'s
`std::function<V&()>` parameter — see `TreeMap.get_or_else`).  This
theorem evaluates the half the code does implement: `get(9)` fails with
the key-not-found error. -/
theorem claim_missing_key_get_error :
    mapOneToSeven.get 9 = .error ⟨9⟩ := by rfl

/-- Claim C8.  The claim states `remove` returns `true` exactly when the
key is present and `false` otherwise, never erroring.  On the reachable
map built by inserting 2, 1, 3, 4, 5, 6 and removing 1, 3, 2, removing the
present key 4 drives remove fix-up case 3 to recurse onto the root, where
`node->sibling()` dereferences the null parent — a crash (modelled
`none`) instead of returning `true`. -/
theorem claim_remove_fixup_crash :
    ((((mapSixKeys.remove 1).bind fun x => x.2.remove 3).bind
        fun x => x.2.remove 2).bind fun x => x.2.remove 4) = none := by decide

/-- Claim C9.  On every reachable map, a full pass of the key iterator
yields exactly the stored keys (the in-order key sequence), strictly
ascending, with no duplicates. -/
theorem claim_iteration_sorted {m : TreeMap K V} (h : Reachable m) :
    m.iterateKeys = ikeys m.root ∧ List.Sorted (· < ·) m.iterateKeys ∧
      m.iterateKeys.Nodup := by
  have hs := reachable_sorted h
  refine ⟨iterateKeys_eq m, ?_, ?_⟩
  · rw [iterateKeys_eq]; exact hs
  · rw [iterateKeys_eq]; exact hs.nodup

/-- Witness for claim C9: the map with keys 1..7 is reachable and iterates
as the sequence 1, 2, 3, 4, 5, 6, 7. -/
theorem claim_iteration_sorted_witness :
    Reachable mapOneToSeven ∧
      (mapOneToSeven.iterateKeys = ikeys mapOneToSeven.root ∧
        List.Sorted (· < ·) mapOneToSeven.iterateKeys ∧ mapOneToSeven.iterateKeys.Nodup) ∧
      mapOneToSeven.iterateKeys = [1, 2, 3, 4, 5, 6, 7] := by
  have hr : Reachable mapOneToSeven :=
    Reachable.insert 7 _ (Reachable.insert 6 _ (Reachable.insert 5 _ (Reachable.insert 4 _
      (Reachable.insert 3 _ (Reachable.insert 2 _ (Reachable.insert 1 _ Reachable.empty))))))
  exact ⟨hr, claim_iteration_sorted hr, by decide⟩

/-- Claim C10.  The const observers (`get`, `get_or`, `get_or_else`, the
const indexed read) and a complete key iteration leave the map entirely
unchanged: in the state-passing translation every one of them returns the
receiver as-is (their C++ bodies are const with no writes). -/
theorem claim_lookup_frame (m : TreeMap K V) (key : K) (f : Unit → V) (d : V) :
    (get_st key m).2 = m ∧ (get_or_st key m f).2 = m ∧ (get_or_else_st key m d).2 = m ∧
      (indexRead_st key m).2 = m ∧ (iterateKeys_st m).2 = m :=
  ⟨rfl, rfl, rfl, rfl, rfl⟩

end RBT
